import Mathlib

/-!
Verification development for the landviewer editor core.

The definitions below are a shallow embedding of the source in
`components/Editor.tsx` (solver, colour filter, contain geometry, the
pinning state machine and the save pipeline).  IEEE doubles are embedded
as exact rationals; JavaScript arrays indexed `0..n-1` become functions
out of `Fin n` or lists; in-place mutation becomes explicit state
passing.  Each definition is named after the source function it embeds.
-/

namespace Landviewer

/-! §1  Gaussian elimination (`solveSystem`). -/

abbrev Vec (n : ℕ) := Fin n → ℚ

abbrev Mat (n : ℕ) := Fin n → Fin n → ℚ

/-- Pivot threshold `1e-9` from `solveSystem`. -/
def pivotEps : ℚ := 1 / 1000000000

/-- Reproduction tolerance `1e-6` used by the spec's round-trip property. -/
def roundEps : ℚ := 1 / 1000000

variable {n : ℕ}

/-- Executable absolute value on ℚ, mirroring `Math.abs` (Mathlib's bundled
`abs` does not reduce in the kernel; `ratAbs_eq_abs` bridges the two). -/
def ratAbs (q : ℚ) : ℚ := if q < 0 then -q else q

/-- Inner loop of the partial-pivot search: scans the remaining candidate
rows in order, replacing the current best only on strict improvement
(mirrors `if (Math.abs(A[k][i]) > Math.abs(A[maxRow][i])) maxRow = k`). -/
def maxRowAux (M : Mat n) (col : Fin n) : List (Fin n) → Fin n → Fin n
  | [], best => best
  | k :: ks, best => maxRowAux M col ks (if ratAbs (M k col) > ratAbs (M best col) then k else best)

/-- Partial pivoting: row of largest absolute value in column `i` among rows
`i, i+1, …, n-1` (earliest on ties), as in the `maxRow` loop of `solveSystem`. -/
def maxRow (M : Mat n) (i : Fin n) : Fin n :=
  maxRowAux M i ((List.finRange n).filter (fun k => i < k)) i

/-- Row swap of the coefficient part, `[aug[i], aug[maxRow]] = [aug[maxRow], aug[i]]`. -/
def swapRowsM (M : Mat n) (i j : Fin n) : Mat n := fun r => M (Equiv.swap i j r)

/-- Row swap of the right-hand-side column. -/
def swapRowsV (c : Vec n) (i j : Fin n) : Vec n := fun r => c (Equiv.swap i j r)

/-- Elimination below pivot `i` on the coefficient part: for every row `k > i`
with `factor = -A[k][i]/A[i][i]`, column `i` is assigned `0` and every column
`j > i` receives `A[k][j] + factor * A[i][j]`; columns `j < i` are untouched,
exactly as the `for (let j = i; j < n + 1; j++)` loop does. -/
def elimBelowM (M : Mat n) (i : Fin n) : Mat n := fun k j =>
  if i < k then
    if j = i then 0
    else if i < j then M k j + -(M k i) / M i i * M i j
    else M k j
  else M k j

/-- Elimination below pivot `i` on the right-hand side (column `n` of the
augmented matrix). -/
def elimBelowC (M : Mat n) (c : Vec n) (i : Fin n) : Vec n := fun k =>
  if i < k then c k + -(M k i) / M i i * c i else c k

/-- Forward phase of `solveSystem`, processing the pivot positions in the
given order (called with `[0, 1, …, n-1]`): select the partial pivot, swap it
into place, fail if its magnitude is below `1e-9`, else eliminate below it. -/
def elimList (M : Mat n) (c : Vec n) : List (Fin n) → Option (Mat n × Vec n)
  | [] => some (M, c)
  | i :: rest =>
    let p := maxRow M i
    let M1 := swapRowsM M i p
    let c1 := swapRowsV c i p
    if ratAbs (M1 i i) < pivotEps then none
    else elimList (elimBelowM M1 i) (elimBelowC M1 c1 i) rest

/-- Failure predicate of the forward phase: true exactly when some selected
pivot magnitude, after partial pivoting, falls below `1e-9`.  It mirrors
`elimList` but carries no right-hand side, which makes it plain that success
or failure of `solveSystem` depends only on the coefficient matrix. -/
def elimFails (M : Mat n) : List (Fin n) → Bool
  | [] => false
  | i :: rest =>
    let p := maxRow M i
    let M1 := swapRowsM M i p
    if ratAbs (M1 i i) < pivotEps then true
    else elimFails (elimBelowM M1 i) rest

/-- Back substitution of `solveSystem`: the counter `i + 1` processes row `i`
(the JS loop runs `i = n-1 … 0`), setting `x[i] = aug[i][n] / aug[i][i]` and
then folding `aug[k][n] -= aug[k][i] * x[i]` into every row `k < i`. -/
def backSubFrom (U : Mat n) : ℕ → Vec n → Vec n → Vec n
  | 0, _, x => x
  | i + 1, c, x =>
    if h : i < n then
      let fi : Fin n := ⟨i, h⟩
      let xi := c fi / U fi fi
      backSubFrom U i (fun k => if (k : ℕ) < i then c k - U k fi * xi else c k)
        (Function.update x fi xi)
    else backSubFrom U i c x

/-- Embedding of `solveSystem`: Gaussian elimination with partial pivoting on
the augmented matrix `[A | b]`, returning `none` when a pivot magnitude drops
below `1e-9`, else the solution produced by back substitution. -/
def solveSystem (A : Mat n) (b : Vec n) : Option (Vec n) :=
  (elimList A b (List.finRange n)).map (fun Uc => backSubFrom Uc.1 n Uc.2 (fun _ => 0))

/-! §2  Perspective transform (`getPerspectiveTransform`). -/

structure Point where
  x : ℚ
  y : ℚ
deriving DecidableEq

/-- Row `A.push([x, y, 1, 0, 0, 0, -x*xp, -y*xp])` of correspondence `(p, q)`. -/
def rowX (p q : Point) : Vec 8 := ![p.x, p.y, 1, 0, 0, 0, -(p.x * q.x), -(p.y * q.x)]

/-- Row `A.push([0, 0, 0, x, y, 1, -x*yp, -y*yp])` of correspondence `(p, q)`. -/
def rowY (p q : Point) : Vec 8 := ![0, 0, 0, p.x, p.y, 1, -(p.x * q.y), -(p.y * q.y)]

/-- Coefficient matrix built by the `for (let i = 0; i < 4; i++)` loop of
`getPerspectiveTransform`, two rows per correspondence in push order. -/
def homA (src dst : Fin 4 → Point) : Mat 8 :=
  ![rowX (src 0) (dst 0), rowY (src 0) (dst 0),
    rowX (src 1) (dst 1), rowY (src 1) (dst 1),
    rowX (src 2) (dst 2), rowY (src 2) (dst 2),
    rowX (src 3) (dst 3), rowY (src 3) (dst 3)]

/-- Right-hand side pushed alongside: `xp, yp` per correspondence. -/
def homB (dst : Fin 4 → Point) : Vec 8 :=
  ![(dst 0).x, (dst 0).y, (dst 1).x, (dst 1).y, (dst 2).x, (dst 2).y, (dst 3).x, (dst 3).y]

/-- Embedding of `getPerspectiveTransform` on two ordered 4-point sequences.
The solved vector `h` determines the returned `matrix3d(h0,h3,0,h6, h1,h4,0,h7,
0,0,1,0, h2,h5,0,1)` string; we keep `h` itself, the `'none'` string becomes
`Option.none`. -/
def getPerspectiveTransform (src dst : Fin 4 → Point) : Option (Vec 8) :=
  solveSystem (homA src dst) (homB dst)

/-- List-interface variant with the source's explicit length-4 guard
(`if (src.length !== 4 || dst.length !== 4) return 'none'`). -/
def getPerspectiveTransformL (src dst : List Point) : Option (Vec 8) :=
  if h : src.length = 4 ∧ dst.length = 4 then
    getPerspectiveTransform (fun i => src.get (Fin.cast h.1.symm i))
      (fun i => dst.get (Fin.cast h.2.symm i))
  else none

/-- Action of the returned `matrix3d` on a plane point `(x, y, 0, 1)` with
perspective divide: numerators `h0·x + h1·y + h2` and `h3·x + h4·y + h5`
over the common denominator `h6·x + h7·y + 1`. -/
def applyTransform (h : Vec 8) (p : Point) : Point :=
  ⟨(h 0 * p.x + h 1 * p.y + h 2) / (h 6 * p.x + h 7 * p.y + 1),
   (h 3 * p.x + h 4 * p.y + h 5) / (h 6 * p.x + h 7 * p.y + 1)⟩

/-- Denominator of the projective map at `p`. -/
abbrev transformDen (h : Vec 8) (p : Point) : ℚ := h 6 * p.x + h 7 * p.y + 1

/-- Agreement of two points within the spec's `1e-6` tolerance, per coordinate. -/
abbrev withinEps (p q : Point) : Prop := |p.x - q.x| ≤ roundEps ∧ |p.y - q.y| ≤ roundEps

/-- Collinearity of three points (zero signed parallelogram area). -/
abbrev collinear3 (p q r : Point) : Prop :=
  (q.x - p.x) * (r.y - p.y) - (q.y - p.y) * (r.x - p.x) = 0

/-! §3  Colour filter (`processImageColors`). -/

structure RGB where
  r : ℤ
  g : ℤ
  b : ℤ
deriving DecidableEq

structure Pixel where
  color : RGB
  alpha : ℤ
deriving DecidableEq

structure ColorFilter where
  color : RGB
  tolerance : ℚ
deriving DecidableEq

/-- Squared Euclidean RGB distance.  The source's `colorDistance` takes the
square root and is only ever compared against a tolerance. -/
def colorDistanceSq (c1 c2 : RGB) : ℤ :=
  (c1.r - c2.r) ^ 2 + (c1.g - c2.g) ^ 2 + (c1.b - c2.b) ^ 2

/-- Embedding of the comparison `colorDistance(pixel, rule) < rule.tolerance`:
for any real `t`, `sqrt d < t` iff `0 < t` and `d < t²`, which stays inside ℚ. -/
def colorMatches (c target : RGB) (tol : ℚ) : Bool :=
  decide (0 < tol ∧ (colorDistanceSq c target : ℚ) < tol ^ 2)

/-- First-match loop over the `remove` rules (`for … { if (…) { isRemoved =
true; break; } }`): only the boolean outcome is observable. -/
def removeLoop (c : RGB) : List ColorFilter → Bool
  | [] => false
  | f :: rest => if colorMatches c f.color f.tolerance then true else removeLoop c rest

/-- First-match loop over the `keep` rules, returning the matching rule
(the source then recolors to that rule's `targetColor`, which is the same
parsed color). -/
def keepLoop (c : RGB) : List ColorFilter → Option ColorFilter
  | [] => none
  | f :: rest => if colorMatches c f.color f.tolerance then some f else keepLoop c rest

/-- Per-pixel body of the `for (let i = 0; i < data.length; i += 4)` loop:
a matching remove rule zeroes alpha; otherwise a non-empty keep list either
recolors to the first matching rule at full opacity or zeroes alpha; an empty
keep list leaves the pixel unchanged. -/
def processPixel (keepRgbs removeRgbs : List ColorFilter) (p : Pixel) : Pixel :=
  if removeLoop p.color removeRgbs then ⟨p.color, 0⟩
  else if keepRgbs.length > 0 then
    match keepLoop p.color keepRgbs with
    | some f => ⟨f.color, 255⟩
    | none => ⟨p.color, 0⟩
  else p

/-- Tolerance scaling `f.tolerance * 2.55` applied when `keepRgbs` and
`removeRgbs` are built (hex parsing by `hexToRgb` is elided: rules carry
their parsed RGB triple). -/
def scaleTolerance (f : ColorFilter) : ColorFilter := ⟨f.color, f.tolerance * (255 / 100)⟩

/-- Pixel loop of `processImageColors` over the flat RGBA buffer, one pixel
(4 bytes) at a time. -/
def processLoop (keepRgbs removeRgbs : List ColorFilter) : List Pixel → List Pixel
  | [] => []
  | p :: rest => processPixel keepRgbs removeRgbs p :: processLoop keepRgbs removeRgbs rest

/-- Embedding of `processImageColors` (the pure pixel-buffer part: canvas
decode and PNG re-encode are outside the core). -/
def processImageColors (keep remove : List ColorFilter) (buffer : List Pixel) : List Pixel :=
  processLoop (keep.map scaleTolerance) (remove.map scaleTolerance) buffer

/-- Spec-side per-pixel classification, written from the specification's
words: test every remove rule (first match wins, pixel becomes fully
transparent); else, if the keep list is non-empty, the first matching keep
rule recolors to exactly its target at full opacity and no match means fully
transparent; else the pixel passes through unchanged. -/
def pixelSpec (keep remove : List ColorFilter) (p : Pixel) : Pixel :=
  let ks := keep.map scaleTolerance
  let rs := remove.map scaleTolerance
  if rs.any (fun f => colorMatches p.color f.color f.tolerance) then ⟨p.color, 0⟩
  else if ks.isEmpty then p
  else
    match ks.find? (fun f => colorMatches p.color f.color f.tolerance) with
    | some f => ⟨f.color, 255⟩
    | none => ⟨p.color, 0⟩

/-! §4  Contain geometry (`calculateObjectContainGeometry`). -/

structure ImageGeom where
  x : ℚ
  y : ℚ
  width : ℚ
  height : ℚ
deriving DecidableEq

structure Size where
  width : ℚ
  height : ℚ
deriving DecidableEq

/-- Embedding of `calculateObjectContainGeometry`. -/
def calculateObjectContainGeometry (containerWidth containerHeight imgNaturalWidth imgNaturalHeight : ℚ) :
    ImageGeom :=
  let imgRatio := imgNaturalWidth / imgNaturalHeight
  let containerRatio := containerWidth / containerHeight
  if imgRatio > containerRatio then
    let renderedWidth := containerWidth
    let renderedHeight := renderedWidth / imgRatio
    ⟨0, (containerHeight - renderedHeight) / 2, renderedWidth, renderedHeight⟩
  else
    let renderedHeight := containerHeight
    let renderedWidth := renderedHeight * imgRatio
    ⟨(containerWidth - renderedWidth) / 2, 0, renderedWidth, renderedHeight⟩

/-! §5  Editor state machine. -/

inductive EditMode where
  | manual
  | auto
deriving DecidableEq

/-- State of the `Editor` component relevant to point acquisition.  Derived
DOM geometry (container rect, preview rect, image sizes) is passed to the
handlers as parameters, as React recomputes it outside this state. -/
structure EditorState where
  editMode : EditMode
  sourcePoints : List Point
  destPoints : List Point
  pinningStep : ℕ
  manualScale : ℚ
  isManuallyAdjusted : Bool
  draggingSourcePointIndex : Option ℕ
deriving DecidableEq

inductive PinTarget where
  | source
  | dest
deriving DecidableEq

/-- Embedding of `handleAutoPinClick`.  For a `source` click, `clickX/clickY`
are relative to the overlay preview element whose contain rect is `g` and
whose natural size is `sz` (the `overlayPreviewRef.current && overlayImageSize`
guard is modelled by those arguments being available); a click outside `g` is
rejected, otherwise on an even step the overlay-natural point is appended.
For a `dest` click the raw container-relative coordinates are appended on an
odd step; no geometry test is performed. -/
def handleAutoPinClick (g : ImageGeom) (sz : Size) (t : PinTarget) (clickX clickY : ℚ)
    (s : EditorState) : EditorState :=
  if 8 ≤ s.pinningStep then s
  else
    match t with
    | .source =>
      if clickX < g.x ∨ g.x + g.width < clickX ∨ clickY < g.y ∨ g.y + g.height < clickY then s
      else
        let point : Point := ⟨(clickX - g.x) / g.width * sz.width,
                              (clickY - g.y) / g.height * sz.height⟩
        if s.pinningStep % 2 = 0 then
          { s with sourcePoints := s.sourcePoints ++ [point], pinningStep := s.pinningStep + 1 }
        else s
    | .dest =>
      let point : Point := ⟨clickX, clickY⟩
      if s.pinningStep % 2 ≠ 0 then
        { s with destPoints := s.destPoints ++ [point], pinningStep := s.pinningStep + 1 }
      else s

/-- Embedding of `handleContainerClick`: guards on auto mode, an odd step
below 8 and the click not landing inside the preview element, then forwards
to `handleAutoPinClick` with target `dest`. -/
def handleContainerClick (g : ImageGeom) (sz : Size) (targetInsidePreview : Bool)
    (clickX clickY : ℚ) (s : EditorState) : EditorState :=
  if s.editMode ≠ .auto ∨ s.pinningStep % 2 = 0 ∨ 8 ≤ s.pinningStep then s
  else if targetInsidePreview then s
  else handleAutoPinClick g sz .dest clickX clickY s

/-- Embedding of the Clear Pins button's `onClick`. -/
def clearPins (s : EditorState) : EditorState :=
  { s with sourcePoints := [], destPoints := [], pinningStep := 0 }

/-- Embedding of `handleModeChange` (body style resets are UI-only). -/
def handleModeChange (m : EditMode) (s : EditorState) : EditorState :=
  { s with editMode := m, pinningStep := 0, isManuallyAdjusted := false }

/-- Embedding of the effect that clears both point lists when the mode
switches to auto. -/
def autoClearEffect (s : EditorState) : EditorState :=
  if s.editMode = .auto then { s with sourcePoints := [], destPoints := [] } else s

/-- State on entering guided (auto-pin) mode: `handleModeChange('auto')`
followed by the clearing effect. -/
def autoInit (s : EditorState) : EditorState := autoClearEffect (handleModeChange .auto s)

/-- Embedding of `handleSourcePointMouseDown`: refuses to start a drag while
the machine awaits the destination click of the current pair (odd step). -/
def handleSourcePointMouseDown (i : ℕ) (s : EditorState) : EditorState :=
  if s.pinningStep % 2 ≠ 0 then s else { s with draggingSourcePointIndex := some i }

/-- Embedding of the auto-mode source-drag `handleMouseMove` effect: mouse
coordinates relative to the preview are clamped to the preview's contain rect
`g`, converted to overlay-natural space, and written to the dragged index. -/
def sourceDragMove (g : ImageGeom) (sz : Size) (mouseX mouseY : ℚ) (s : EditorState) :
    EditorState :=
  match s.draggingSourcePointIndex with
  | none => s
  | some i =>
    let clickX := max g.x (min mouseX (g.x + g.width))
    let clickY := max g.y (min mouseY (g.y + g.height))
    let newPoint : Point := ⟨(clickX - g.x) / g.width * sz.width,
                             (clickY - g.y) / g.height * sz.height⟩
    { s with sourcePoints := s.sourcePoints.mapIdx (fun j p => if j = i then newPoint else p) }

/-- Embedding of `handleAutoDestPointDrag`: repositions the dragged
destination point with no step guard. -/
def handleAutoDestPointDrag (newPoint : Point) (draggedIndex : ℕ) (s : EditorState) :
    EditorState :=
  { s with destPoints := s.destPoints.mapIdx (fun j p => if j = draggedIndex then newPoint else p) }

/-- Embedding of `handleManualPointDrag`: sets the manually-adjusted flag and
repositions the dragged destination point. -/
def handleManualPointDrag (newPoint : Point) (draggedIndex : ℕ) (s : EditorState) :
    EditorState :=
  { s with isManuallyAdjusted := true,
           destPoints := s.destPoints.mapIdx (fun j p => if j = draggedIndex then newPoint else p) }

/-- Embedding of `updatePointsForScale`: fits the overlay at the given scale
inside the field photo's contain rect, centred, and replaces the destination
points with the four corners of that rectangle. -/
def updatePointsForScale (g : ImageGeom) (sz : Size) (scale : ℚ) (s : EditorState) :
    EditorState :=
  if g.width = 0 then s
  else
    let overlayAspect := sz.width / sz.height
    let containerAspect := g.width / g.height
    let wh : ℚ × ℚ :=
      if overlayAspect > containerAspect then (g.width * scale, g.width * scale / overlayAspect)
      else (g.height * scale * overlayAspect, g.height * scale)
    let centerX := g.x + g.width / 2
    let centerY := g.y + g.height / 2
    { s with destPoints :=
        [⟨centerX - wh.1 / 2, centerY - wh.2 / 2⟩,
         ⟨centerX + wh.1 / 2, centerY - wh.2 / 2⟩,
         ⟨centerX + wh.1 / 2, centerY + wh.2 / 2⟩,
         ⟨centerX - wh.1 / 2, centerY + wh.2 / 2⟩] }

/-- Embedding of the effect `updatePointsForScale(manualScale)` guarded by
`editMode === 'manual' && imageRenderGeom.width > 0 && overlayImageSize &&
!isManuallyAdjusted`; it re-runs after every event or geometry change. -/
def manualPointsEffect (g : ImageGeom) (sz : Size) (s : EditorState) : EditorState :=
  if s.editMode = .manual ∧ 0 < g.width ∧ s.isManuallyAdjusted = false then
    updatePointsForScale g sz s.manualScale s
  else s

/-- Embedding of `handleManualScaleChange`: clears the manually-adjusted flag
and stores the new scale (the effect above then recomputes the points). -/
def handleManualScaleChange (newScale : ℚ) (s : EditorState) : EditorState :=
  { s with isManuallyAdjusted := false, manualScale := newScale }

/-- Embedding of the Reset Points button: scale back to `0.5`, flag cleared. -/
def resetPoints (s : EditorState) : EditorState :=
  { s with manualScale := 1 / 2, isManuallyAdjusted := false }

/-- Events available while the editor sits in guided (auto-pin) mode. -/
inductive AutoEvent where
  | sourceClick (g : ImageGeom) (sz : Size) (cx cy : ℚ)
  | containerClick (g : ImageGeom) (sz : Size) (insidePreview : Bool) (cx cy : ℚ)
  | clear
  | srcMouseDown (i : ℕ)
  | srcDragMove (g : ImageGeom) (sz : Size) (mx my : ℚ)
  | destDrag (p : Point) (i : ℕ)

/-- Transition function of guided mode: dispatch to the embedded handlers. -/
def autoStep : AutoEvent → EditorState → EditorState
  | .sourceClick g sz cx cy => handleAutoPinClick g sz .source cx cy
  | .containerClick g sz ip cx cy => handleContainerClick g sz ip cx cy
  | .clear => clearPins
  | .srcMouseDown i => handleSourcePointMouseDown i
  | .srcDragMove g sz mx my => sourceDragMove g sz mx my
  | .destDrag p i => handleAutoDestPointDrag p i

/-- States reachable in guided mode: entry via `autoInit`, then any sequence
of guided-mode events. -/
inductive ReachableAuto : EditorState → Prop where
  | init (s : EditorState) : ReachableAuto (autoInit s)
  | step (e : AutoEvent) (s : EditorState) : ReachableAuto s → ReachableAuto (autoStep e s)

/-! §6  Save pipeline (`handleSave`). -/

/-- Outcomes of a save attempt: an `alert` with no file, or a triggered
download. -/
inductive SaveOutcome where
  | aborted
  | downloadedOriginal
  | downloadedResult
deriving DecidableEq

/-- Truth of the outcome being an abort (user-visible error, no file). -/
def SaveOutcome.isAborted : SaveOutcome → Bool
  | .aborted => true
  | _ => false

/-- Environment of one `handleSave` run.  Asynchronous resource acquisitions
(2d context, processed overlay, SVG decode, blob encode, EXIF bytes) are
modelled by their success flags; the points and geometry come from state. -/
structure SaveEnv where
  ctxOk : Bool
  overlayImageSize : Option Size
  saveWithOverlay : Bool
  processedOverlayReady : Bool
  bgNaturalWidth : ℚ
  imageRenderGeom : ImageGeom
  destPoints : List Point
  sourcePoints : List Point
  exifAvailable : Bool
  blobOk : Bool
  svgLoadOk : Bool

/-- Destination points remapped to export-natural space:
`(p - imageRenderGeom.offset) * (naturalWidth / imageRenderGeom.width)`. -/
def finalDestPoints (env : SaveEnv) : List Point :=
  let scale := env.bgNaturalWidth / env.imageRenderGeom.width
  env.destPoints.map (fun p =>
    ⟨(p.x - env.imageRenderGeom.x) * scale, (p.y - env.imageRenderGeom.y) * scale⟩)

/-! §7  Proof-layer notions about the solver. -/

/-- Dot product of a row with a candidate solution. -/
def dotRow (row y : Vec n) : ℚ := ∑ j, row j * y j

/-- Truth of `y` solving the linear system `M · y = c`, row by row. -/
def Sol (M : Mat n) (c : Vec n) (y : Vec n) : Prop := ∀ r, dotRow (M r) y = c r

/-- Strictly-lower-triangular zeros in the first `m` columns: the invariant
maintained by the forward elimination. -/
def LowZero (M : Mat n) (m : ℕ) : Prop :=
  ∀ r j : Fin n, (j : ℕ) < m → j < r → M r j = 0

/-- Embedding of the decision flow of `handleSave` (inside `bgImage.onload`).
Every `alert(...); return` becomes `aborted`; `triggerDownload` becomes a
`downloaded…` outcome. -/
def runSave (env : SaveEnv) : SaveOutcome :=
  match env.overlayImageSize with
  | none => .aborted
  | some _ =>
    if env.ctxOk = false then .aborted
    else if env.saveWithOverlay = false then
      if env.exifAvailable then .downloadedOriginal
      else if env.blobOk then .downloadedOriginal
      else .aborted
    else if env.processedOverlayReady = false then .aborted
    else if (finalDestPoints env).length < 4 ∨ env.sourcePoints.length < 4 then .aborted
    else
      match getPerspectiveTransformL env.sourcePoints (finalDestPoints env) with
      | none => .aborted
      | some _ =>
        if env.svgLoadOk = false then .aborted
        else if env.exifAvailable then .downloadedResult
        else if env.blobOk then .downloadedResult
        else .aborted

/-! §7b  Concrete instances used by counterexamples and witnesses. -/

/-- Concrete translation correspondence: a 10×10 square moved by `(10, 5)`. -/
def transSrc : Fin 4 → Point := ![⟨0, 0⟩, ⟨10, 0⟩, ⟨10, 10⟩, ⟨0, 10⟩]

/-- Destination of the translation correspondence. -/
def transDst : Fin 4 → Point := ![⟨10, 5⟩, ⟨20, 5⟩, ⟨20, 15⟩, ⟨10, 15⟩]

/-- Solver output on the translation correspondence. -/
def transH : Vec 8 := ![1, 0, 10, 0, 1, 5, 0, 0]

/-- Source points whose solved transform has denominator `0` at index `0`. -/
def vanishSrc : Fin 4 → Point := ![⟨1, 0⟩, ⟨0, 0⟩, ⟨0, 5⟩, ⟨2, 1⟩]

/-- Destination points for the vanishing-denominator correspondence. -/
def vanishDst : Fin 4 → Point := ![⟨9, 9⟩, ⟨-1, 0⟩, ⟨-1, 5⟩, ⟨-1, -1⟩]

/-- Source points whose first three entries are collinear (on the line
`y = 1`). -/
def collSrc : Fin 4 → Point := ![⟨0, 1⟩, ⟨1, 1⟩, ⟨2, 1⟩, ⟨0, 3⟩]

/-- Generic destination points paired with `collSrc`. -/
def collDst : Fin 4 → Point := ![⟨0, 0⟩, ⟨1, 1⟩, ⟨5, 2⟩, ⟨3, 7⟩]

/-- Source points with three entries on the line `y = x` through the origin. -/
def originSrc : Fin 4 → Point := ![⟨0, 0⟩, ⟨1, 1⟩, ⟨2, 2⟩, ⟨1, 0⟩]

/-- Generic destination points paired with `originSrc`. -/
def originDst : Fin 4 → Point := ![⟨0, 0⟩, ⟨1, 1⟩, ⟨5, 2⟩, ⟨3, 7⟩]

/-- Contain rect of a 200×400 field photo in a 400×400 container. -/
def photoRect : ImageGeom := calculateObjectContainGeometry 400 400 200 400

/-- Sample preview contain rect. -/
def previewRect : ImageGeom := ⟨0, 0, 100, 100⟩

/-- Sample overlay natural size. -/
def previewSize : Size := ⟨50, 50⟩

/-- Guided-mode state awaiting the destination click of the first pair. -/
def autoOddState : EditorState := ⟨.auto, [⟨0, 0⟩], [], 1, 1 / 2, false, none⟩

/-- Guided-mode state awaiting the first source click. -/
def autoEvenState : EditorState := ⟨.auto, [], [], 0, 1 / 2, false, none⟩

/-- Sample field-photo contain rect for manual-mode scenarios. -/
def manualGeom : ImageGeom := ⟨0, 0, 400, 400⟩

/-- Sample overlay natural size for manual-mode scenarios. -/
def manualSize : Size := ⟨100, 200⟩

/-- Manual-mode state after the user dragged a destination point. -/
def draggedState : EditorState :=
  ⟨.manual, [], [⟨0, 0⟩, ⟨1, 0⟩, ⟨1, 1⟩, ⟨0, 1⟩], 0, 1 / 2, true, none⟩

/-- Keep rule whose target colour lies inside a remove rule's tolerance. -/
def hijackKeep : List ColorFilter := [⟨⟨0, 0, 5⟩, 80⟩]

/-- Remove rule that captures the keep rule's target colour. -/
def hijackRemove : List ColorFilter := [⟨⟨0, 0, 0⟩, 3⟩]

/-- One-pixel buffer recoloured by the keep rule on the first pass. -/
def hijackBuffer : List Pixel := [⟨⟨0, 0, 100⟩, 255⟩]

/-- The editor's default keep rules (red, tolerance 80). -/
def defaultKeep : List ColorFilter := [⟨⟨255, 0, 0⟩, 80⟩]

/-- The editor's default remove rules (yellow 80, white 5). -/
def defaultRemove : List ColorFilter := [⟨⟨255, 255, 0⟩, 80⟩, ⟨⟨255, 255, 255⟩, 5⟩]

/-- Small sample buffer: a red pixel, a green pixel, a near-white pixel. -/
def sampleBuffer : List Pixel :=
  [⟨⟨255, 0, 0⟩, 255⟩, ⟨⟨10, 200, 30⟩, 255⟩, ⟨⟨250, 250, 250⟩, 255⟩]

/-- Save environment whose destination sequence has only 3 points. -/
def failingSaveEnv : SaveEnv :=
  ⟨true, some ⟨100, 200⟩, true, true, 800, ⟨0, 0, 400, 400⟩,
    [⟨0, 0⟩, ⟨1, 0⟩, ⟨1, 1⟩], [⟨0, 0⟩, ⟨1, 0⟩, ⟨1, 1⟩, ⟨0, 1⟩], false, true, true⟩

/-- Fresh editor state before any interaction. -/
def freshState : EditorState := ⟨.manual, [], [], 0, 1 / 2, false, none⟩

/-! §8  Solver lemmas: the forward phase preserves solution sets, produces an
upper-triangular system with pivots at least `1e-9`, and back substitution
solves that system; together: on success `solveSystem` returns the unique
exact solution. -/

theorem pivotEps_pos : (0 : ℚ) < pivotEps := by norm_num [pivotEps]

theorem ratAbs_nonneg (q : ℚ) : 0 ≤ ratAbs q := by
  unfold ratAbs; split
  · linarith
  · linarith [not_lt.mp (by assumption : ¬ q < 0)]

theorem ratAbs_zero : ratAbs (0 : ℚ) = 0 := by norm_num [ratAbs]

theorem maxRowAux_mem {n : ℕ} (M : Mat n) (col : Fin n) (l : List (Fin n)) (best : Fin n) :
    maxRowAux M col l best = best ∨ maxRowAux M col l best ∈ l := by
  induction l generalizing best with
  | nil => exact Or.inl rfl
  | cons k ks ih =>
    rw [maxRowAux]
    rcases ih (if ratAbs (M k col) > ratAbs (M best col) then k else best) with h | h
    · rw [h]
      split
      · exact Or.inr (List.mem_cons_self _ _)
      · exact Or.inl rfl
    · exact Or.inr (List.mem_cons_of_mem _ h)

theorem le_maxRow {n : ℕ} (M : Mat n) (i : Fin n) : i ≤ maxRow M i := by
  unfold maxRow
  rcases maxRowAux_mem M i ((List.finRange n).filter (fun k => i < k)) i with h | h
  · rw [h]
  · have := (List.mem_filter.mp h).2
    exact le_of_lt (by simpa using this)

theorem swap_sol {n : ℕ} (M : Mat n) (c : Vec n) (i j : Fin n) (y : Vec n) :
    Sol (swapRowsM M i j) (swapRowsV c i j) y ↔ Sol M c y := by
  constructor <;> intro h r
  · have := h (Equiv.swap i j r)
    simpa [swapRowsM, swapRowsV, Equiv.swap_apply_self] using this
  · exact h (Equiv.swap i j r)

theorem lowZero_swap {n : ℕ} (M : Mat n) (m : ℕ) (i p : Fin n) (hm : m ≤ (i : ℕ))
    (hp : i ≤ p) (h : LowZero M m) : LowZero (swapRowsM M i p) m := by
  intro r j hj hjr
  unfold swapRowsM
  apply h _ _ hj
  rw [Equiv.swap_apply_def]
  split
  · next hri =>
      have : (j : ℕ) < (p : ℕ) := by
        have := Fin.le_def.mp hp; omega
      exact Fin.lt_def.mpr this
  · split
    · next _ hrp =>
        have : (j : ℕ) < (i : ℕ) := by omega
        exact Fin.lt_def.mpr this
    · exact hjr

theorem lowZero_elimBelow {n : ℕ} (M : Mat n) (i : Fin n) (h : LowZero M (i : ℕ)) :
    LowZero (elimBelowM M i) ((i : ℕ) + 1) := by
  intro r j hj hjr
  unfold elimBelowM
  by_cases hir : i < r
  · rw [if_pos hir]
    by_cases hji : j = i
    · rw [if_pos hji]
    · rw [if_neg hji]
      have hvji : (j : ℕ) < (i : ℕ) := by
        have : (j : ℕ) ≠ (i : ℕ) := fun hc => hji (Fin.ext hc)
        omega
      rw [if_neg (by exact fun hc => absurd (Fin.lt_def.mp hc) (by omega))]
      exact h r j hvji hjr
  · rw [if_neg hir]
    have : (j : ℕ) < (i : ℕ) := by
      have h1 := Fin.lt_def.mp hjr
      have h2 := Fin.le_def.mp (not_lt.mp hir)
      omega
    exact h r j this hjr

theorem dotRow_eq_of_rowEq {n : ℕ} {row1 row2 : Vec n} (h : ∀ j, row1 j = row2 j)
    (y : Vec n) : dotRow row1 y = dotRow row2 y := by
  unfold dotRow
  exact Finset.sum_congr rfl (fun j _ => by rw [h j])

theorem elimBelowM_self {n : ℕ} (M : Mat n) (i : Fin n) (j : Fin n) :
    elimBelowM M i i j = M i j := by
  unfold elimBelowM
  rw [if_neg (lt_irrefl i)]

theorem elimBelowC_self {n : ℕ} (M : Mat n) (c : Vec n) (i : Fin n) :
    elimBelowC M c i i = c i := by
  unfold elimBelowC
  rw [if_neg (lt_irrefl i)]

theorem elimBelow_dotRow {n : ℕ} (M : Mat n) (i : Fin n) (hpiv : M i i ≠ 0)
    (hlow : ∀ j : Fin n, j < i → M i j = 0) (k : Fin n) (hk : i < k) (y : Vec n) :
    dotRow (elimBelowM M i k) y = dotRow (M k) y + -(M k i) / M i i * dotRow (M i) y := by
  unfold dotRow elimBelowM
  rw [Finset.mul_sum, ← Finset.sum_add_distrib]
  apply Finset.sum_congr rfl
  intro j _
  rw [if_pos hk]
  by_cases hji : j = i
  · subst hji
    rw [if_pos rfl]
    have hcancel : -(M k j) / M j j * M j j = -(M k j) := div_mul_cancel₀ _ hpiv
    have : -(M k j) / M j j * (M j j * y j) = -(M k j) * y j := by
      rw [← mul_assoc, hcancel]
    rw [this]; ring
  · rw [if_neg hji]
    by_cases hij : i < j
    · rw [if_pos hij]; ring
    · rw [if_neg hij]
      have hji' : j < i := lt_of_le_of_ne (not_lt.mp hij) (fun hc => hji hc)
      rw [hlow j hji']; ring

theorem elimBelow_sol {n : ℕ} (M : Mat n) (c : Vec n) (i : Fin n) (hpiv : M i i ≠ 0)
    (hlow : ∀ j : Fin n, j < i → M i j = 0) (y : Vec n) :
    Sol (elimBelowM M i) (elimBelowC M c i) y ↔ Sol M c y := by
  constructor
  · intro h r
    by_cases hir : i < r
    · have hi : dotRow (M i) y = c i := by
        have := h i
        rwa [dotRow_eq_of_rowEq (elimBelowM_self M i) y, elimBelowC_self] at this
      have hr := h r
      rw [elimBelow_dotRow M i hpiv hlow r hir y, hi] at hr
      have : elimBelowC M c i r = c r + -(M r i) / M i i * c i := by
        unfold elimBelowC; rw [if_pos hir]
      rw [this] at hr
      linarith
    · have := h r
      have hrow : ∀ j, elimBelowM M i r j = M r j := by
        intro j; unfold elimBelowM; rw [if_neg hir]
      have hc : elimBelowC M c i r = c r := by
        unfold elimBelowC; rw [if_neg hir]
      rwa [dotRow_eq_of_rowEq hrow y, hc] at this
  · intro h r
    by_cases hir : i < r
    · rw [elimBelow_dotRow M i hpiv hlow r hir y, h r, h i]
      unfold elimBelowC; rw [if_pos hir]
    · have hrow : ∀ j, elimBelowM M i r j = M r j := by
        intro j; unfold elimBelowM; rw [if_neg hir]
      rw [dotRow_eq_of_rowEq hrow y]
      have hc : elimBelowC M c i r = c r := by
        unfold elimBelowC; rw [if_neg hir]
      rw [hc]; exact h r

theorem finRange_drop_eq {n : ℕ} (i : ℕ) (h : i < n) :
    (List.finRange n).drop i = ⟨i, h⟩ :: (List.finRange n).drop (i + 1) := by
  have hlen : i < (List.finRange n).length := by simpa using h
  rw [List.drop_eq_getElem_cons hlen]
  congr 1
  simp

theorem finRange_drop_nil {n : ℕ} (i : ℕ) (h : n ≤ i) :
    (List.finRange n).drop i = [] := by
  apply List.drop_eq_nil_of_le
  simpa using h

theorem elimList_spec {n : ℕ} :
    ∀ (l : List (Fin n)) (i : ℕ) (M : Mat n) (c : Vec n) (U : Mat n) (d : Vec n),
    l = (List.finRange n).drop i →
    LowZero M i →
    elimList M c l = some (U, d) →
    (∀ y, Sol U d y ↔ Sol M c y) ∧ LowZero U n ∧
      (∀ r : Fin n, i ≤ (r : ℕ) → pivotEps ≤ ratAbs (U r r)) ∧
      (∀ r : Fin n, (r : ℕ) < i → (∀ j, U r j = M r j) ∧ d r = c r) := by
  intro l
  induction l with
  | nil =>
    intro i M c U d hl hlow heq
    have hn : n ≤ i := by
      by_contra hc
      push_neg at hc
      rw [finRange_drop_eq i hc] at hl
      exact List.cons_ne_nil _ _ hl.symm
    have hU : U = M ∧ d = c := by
      rw [elimList] at heq
      have := Option.some.inj heq
      exact ⟨congrArg Prod.fst this.symm, congrArg Prod.snd this.symm⟩
    obtain ⟨rfl, rfl⟩ := hU
    refine ⟨fun y => Iff.rfl, ?_, ?_, ?_⟩
    · intro r j hj hjr
      exact hlow r j (lt_of_lt_of_le j.isLt hn) hjr
    · intro r hr
      exact absurd r.isLt (by omega)
    · intro r _
      exact ⟨fun j => rfl, rfl⟩
  | cons a rest ih =>
    intro i M c U d hl hlow heq
    have hin : i < n := by
      by_contra hc
      push_neg at hc
      rw [finRange_drop_nil i hc] at hl
      exact List.cons_ne_nil _ _ hl
    rw [finRange_drop_eq i hin] at hl
    injection hl with ha hrest
    subst ha
    subst hrest
    rw [elimList] at heq
    set fi : Fin n := ⟨i, hin⟩ with hfi
    set p := maxRow M fi with hpdef
    set M1 := swapRowsM M fi p with hM1
    set c1 := swapRowsV c fi p with hc1
    by_cases hpiv : ratAbs (M1 fi fi) < pivotEps
    · rw [if_pos hpiv] at heq
      exact absurd heq (by simp)
    · rw [if_neg hpiv] at heq
      have hip : fi ≤ p := le_maxRow M fi
      have hlow1 : LowZero M1 i := lowZero_swap M i fi p (le_refl i) hip hlow
      have hlow2 : LowZero (elimBelowM M1 fi) (i + 1) := lowZero_elimBelow M1 fi hlow1
      obtain ⟨hiff, hlowU, hdiag, hpres⟩ :=
        ih (i + 1) (elimBelowM M1 fi) (elimBelowC M1 c1 fi) U d rfl hlow2 heq
      have hMii : M1 fi fi ≠ 0 := by
        intro h0
        rw [h0, ratAbs_zero] at hpiv
        exact hpiv pivotEps_pos
      have hlowrow : ∀ j : Fin n, j < fi → M1 fi j = 0 := by
        intro j hj
        exact hlow1 fi j (Fin.lt_def.mp hj) hj
      refine ⟨?_, hlowU, ?_, ?_⟩
      · intro y
        rw [hiff y, elimBelow_sol M1 c1 fi hMii hlowrow y, swap_sol]
      · intro r hr
        by_cases hri : (r : ℕ) = i
        · have hfir : r = fi := Fin.ext hri
          have h1 : ∀ j, U r j = elimBelowM M1 fi r j := (hpres r (by omega)).1
          rw [h1 r, hfir, elimBelowM_self]
          exact not_lt.mp hpiv
        · exact hdiag r (by omega)
      · intro r hr
        obtain ⟨hU, hd⟩ := hpres r (by omega)
        have hfival : (fi : ℕ) = i := rfl
        have hnr : ¬ fi < r := by
          intro hc
          have := Fin.lt_def.mp hc
          omega
        have hfix : Equiv.swap fi p r = r := by
          apply Equiv.swap_apply_of_ne_of_ne
          · intro hc
            have := congrArg Fin.val hc
            omega
          · intro hc
            have h1 := congrArg Fin.val hc
            have h2 : (fi : ℕ) ≤ (p : ℕ) := Fin.le_def.mp hip
            omega
        constructor
        · intro j
          rw [hU j]
          unfold elimBelowM
          rw [if_neg hnr, hM1]
          unfold swapRowsM
          rw [hfix]
        · rw [hd]
          unfold elimBelowC
          rw [if_neg hnr, hc1]
          unfold swapRowsV
          rw [hfix]

theorem sum_filter_succ {n : ℕ} (f : Vec n) (i : ℕ) (h : i < n) :
    ∑ j ∈ Finset.univ.filter (fun j : Fin n => i ≤ (j : ℕ)), f j
      = f ⟨i, h⟩ + ∑ j ∈ Finset.univ.filter (fun j : Fin n => i + 1 ≤ (j : ℕ)), f j := by
  have hset : Finset.univ.filter (fun j : Fin n => i ≤ (j : ℕ))
      = insert ⟨i, h⟩ (Finset.univ.filter (fun j : Fin n => i + 1 ≤ (j : ℕ))) := by
    ext j
    simp only [Finset.mem_filter, Finset.mem_insert, Finset.mem_univ, true_and]
    constructor
    · intro hj
      by_cases hji : (j : ℕ) = i
      · exact Or.inl (Fin.ext hji)
      · exact Or.inr (by omega)
    · rintro (rfl | hj)
      · exact le_refl i
      · omega
  rw [hset, Finset.sum_insert]
  simp only [Finset.mem_filter, Finset.mem_univ, true_and]
  omega

theorem backSubFrom_succ {n : ℕ} (U : Mat n) (i : ℕ) (h : i < n) (c x : Vec n) :
    backSubFrom U (i + 1) c x =
      backSubFrom U i
        (fun k => if (k : ℕ) < i then c k - U k ⟨i, h⟩ * (c ⟨i, h⟩ / U ⟨i, h⟩ ⟨i, h⟩) else c k)
        (Function.update x ⟨i, h⟩ (c ⟨i, h⟩ / U ⟨i, h⟩ ⟨i, h⟩)) := by
  rw [backSubFrom, dif_pos h]

theorem backSub_spec {n : ℕ} (U : Mat n) (c₀ : Vec n) (hup : LowZero U n)
    (hdiag : ∀ r : Fin n, U r r ≠ 0) :
    ∀ (i : ℕ), i ≤ n → ∀ (c x : Vec n),
    (∀ k : Fin n, (k : ℕ) < i →
        c k = c₀ k - ∑ j ∈ Finset.univ.filter (fun j : Fin n => i ≤ (j : ℕ)), U k j * x j) →
    (∀ k : Fin n, i ≤ (k : ℕ) → dotRow (U k) x = c₀ k) →
    Sol U c₀ (backSubFrom U i c x) := by
  intro i
  induction i with
  | zero =>
    intro _ c x _ hx
    intro r
    exact hx r (Nat.zero_le _)
  | succ i ih =>
    intro hle c x hc hx
    have hi : i < n := lt_of_lt_of_le (Nat.lt_succ_self i) hle
    rw [backSubFrom_succ U i hi c x]
    set fi : Fin n := ⟨i, hi⟩ with hfi
    have hfival : (fi : ℕ) = i := rfl
    set xi := c fi / U fi fi with hxi
    set x' := Function.update x fi xi with hx'def
    have hx'fi : x' fi = xi := Function.update_same fi xi x
    have hx'ne : ∀ j : Fin n, j ≠ fi → x' j = x j := fun j hj =>
      Function.update_noteq hj xi x
    apply ih (le_of_lt (Nat.lt_of_succ_le hle))
    · intro k hk
      rw [if_pos hk]
      rw [hc k (by omega)]
      rw [sum_filter_succ (fun j => U k j * x' j) i hi]
      have hsum : ∑ j ∈ Finset.univ.filter (fun j : Fin n => i + 1 ≤ (j : ℕ)), U k j * x' j
          = ∑ j ∈ Finset.univ.filter (fun j : Fin n => i + 1 ≤ (j : ℕ)), U k j * x j := by
        apply Finset.sum_congr rfl
        intro j hj
        simp only [Finset.mem_filter, Finset.mem_univ, true_and] at hj
        rw [hx'ne j (fun hc' => by rw [hc'] at hj; omega)]
      rw [hsum, hx'fi]
      ring
    · intro k hk
      by_cases hki : (k : ℕ) = i
      · have hkf : k = fi := Fin.ext hki
        rw [hkf]
        have hdrop : dotRow (U fi) x'
            = ∑ j ∈ Finset.univ.filter (fun j : Fin n => i ≤ (j : ℕ)), U fi j * x' j := by
          unfold dotRow
          refine (Finset.sum_filter_of_ne ?_).symm
          intro j _ hne
          by_contra hji
          push_neg at hji
          exact hne (by rw [hup fi j j.isLt (Fin.lt_def.mpr (by omega))]; ring)
        rw [hdrop, sum_filter_succ (fun j => U fi j * x' j) i hi, hx'fi]
        have hXfi : U fi fi * xi = c fi := by
          rw [hxi, mul_comm, div_mul_cancel₀ _ (hdiag fi)]
        have hsum : ∑ j ∈ Finset.univ.filter (fun j : Fin n => i + 1 ≤ (j : ℕ)), U fi j * x' j
            = ∑ j ∈ Finset.univ.filter (fun j : Fin n => i + 1 ≤ (j : ℕ)), U fi j * x j := by
          apply Finset.sum_congr rfl
          intro j hj
          simp only [Finset.mem_filter, Finset.mem_univ, true_and] at hj
          rw [hx'ne j (fun hc' => by rw [hc'] at hj; omega)]
        rw [hsum]
        have hcfi := hc fi (by omega)
        rw [hcfi] at hXfi
        rw [hXfi]
        ring
      · have hsame : dotRow (U k) x' = dotRow (U k) x := by
          unfold dotRow
          apply Finset.sum_congr rfl
          intro j _
          by_cases hjf : j = fi
          · rw [hjf, hup k fi (by omega) (Fin.lt_def.mpr (by omega))]
            ring
          · rw [hx'ne j hjf]
        rw [hsame]
        exact hx k (by omega)

theorem upperTri_unique {n : ℕ} (U : Mat n) (c : Vec n) (hup : LowZero U n)
    (hdiag : ∀ r : Fin n, U r r ≠ 0) (y z : Vec n) (hy : Sol U c y) (hz : Sol U c z) :
    y = z := by
  have key : ∀ d : ℕ, ∀ r : Fin n, n - (r : ℕ) ≤ d → y r = z r := by
    intro d
    induction d with
    | zero =>
      intro r hr
      exact absurd hr (by have := r.isLt; omega)
    | succ d ih =>
      intro r hr
      have hrow : ∑ j, U r j * (y j - z j) = 0 := by
        have h1 := hy r
        have h2 := hz r
        unfold dotRow at h1 h2
        have hsplit : ∑ j, U r j * (y j - z j)
            = (∑ j, U r j * y j) - ∑ j, U r j * z j := by
          rw [← Finset.sum_sub_distrib]
          apply Finset.sum_congr rfl
          intro j _
          ring
        rw [hsplit, h1, h2, sub_self]
      have hsingle : ∑ j, U r j * (y j - z j) = U r r * (y r - z r) := by
        apply Finset.sum_eq_single r
        · intro j _ hjr
          rcases Nat.lt_trichotomy (j : ℕ) (r : ℕ) with hlt | heq | hgt
          · rw [hup r j j.isLt (Fin.lt_def.mpr hlt)]
            ring
          · exact absurd (Fin.ext heq) hjr
          · rw [ih j (by have := j.isLt; omega), sub_self, mul_zero]
        · intro hr'
          exact absurd (Finset.mem_univ r) hr'
      rw [hsingle] at hrow
      rcases mul_eq_zero.mp hrow with h | h
      · exact absurd h (hdiag r)
      · exact sub_eq_zero.mp h
  funext r
  exact key n r (by omega)

theorem solveSystem_spec {n : ℕ} (A : Mat n) (b : Vec n) (x : Vec n)
    (h : solveSystem A b = some x) :
    Sol A b x ∧ ∀ y, Sol A b y → y = x := by
  unfold solveSystem at h
  cases helim : elimList A b (List.finRange n) with
  | none => rw [helim] at h; exact absurd h (by simp)
  | some Ud =>
    obtain ⟨U, d⟩ := Ud
    rw [helim] at h
    have hx : x = backSubFrom U n d (fun _ => 0) := by
      have := Option.some.inj h
      exact this.symm
    have hlow0 : LowZero A 0 := fun r j hj _ => absurd hj (Nat.not_lt_zero _)
    obtain ⟨hiff, hlowU, hdiagEps, _⟩ :=
      elimList_spec (List.finRange n) 0 A b U d (List.drop_zero _).symm hlow0 helim
    have hdiag : ∀ r : Fin n, U r r ≠ 0 := by
      intro r h0
      have hge := hdiagEps r (Nat.zero_le _)
      rw [h0, ratAbs_zero] at hge
      linarith [pivotEps_pos]
    have hsolU : Sol U d (backSubFrom U n d (fun _ => 0)) := by
      apply backSub_spec U d hlowU hdiag n (le_refl n)
      · intro k _
        have hempty : Finset.univ.filter (fun j : Fin n => n ≤ (j : ℕ)) = ∅ := by
          ext j
          simp only [Finset.mem_filter, Finset.mem_univ, true_and, Finset.not_mem_empty,
            iff_false]
          have := j.isLt
          omega
        rw [hempty, Finset.sum_empty, sub_zero]
      · intro k hk
        exact absurd k.isLt (by omega)
    refine ⟨?_, ?_⟩
    · rw [hx]
      exact (hiff _).mp hsolU
    · intro y hy
      rw [hx]
      exact upperTri_unique U d hlowU hdiag y _ ((hiff y).mpr hy) hsolU

theorem elimList_none_iff {n : ℕ} (M : Mat n) (c : Vec n) (l : List (Fin n)) :
    elimList M c l = none ↔ elimFails M l = true := by
  induction l generalizing M c with
  | nil => simp [elimList, elimFails]
  | cons a rest ih =>
    rw [elimList, elimFails]
    by_cases hpiv : ratAbs (swapRowsM M a (maxRow M a) a a) < pivotEps
    · rw [if_pos hpiv, if_pos hpiv]
      simp
    · rw [if_neg hpiv, if_neg hpiv]
      exact ih _ _

theorem solveSystem_none_iff {n : ℕ} (A : Mat n) (b : Vec n) :
    solveSystem A b = none ↔ elimFails A (List.finRange n) = true := by
  rw [← elimList_none_iff A b]
  unfold solveSystem
  cases elimList A b (List.finRange n) <;> simp

theorem solveSystem_none_of_kernel {n : ℕ} (A : Mat n) (b : Vec n) (v : Vec n)
    (r₀ : Fin n) (hvr : v r₀ ≠ 0) (hker : ∀ r, dotRow (A r) v = 0) :
    solveSystem A b = none := by
  cases hsolve : solveSystem A b with
  | none => rfl
  | some x =>
    obtain ⟨hsol, huniq⟩ := solveSystem_spec A b x hsolve
    have hsol2 : Sol A b (fun j => x j + v j) := by
      intro r
      unfold dotRow
      have hsplit : ∑ j, A r j * (x j + v j)
          = (∑ j, A r j * x j) + ∑ j, A r j * v j := by
        rw [← Finset.sum_add_distrib]
        apply Finset.sum_congr rfl
        intro j _
        ring
      have h1 := hsol r
      have h2 := hker r
      unfold dotRow at h1 h2
      rw [hsplit, h1, h2, add_zero]
    have heq := huniq _ hsol2
    have := congrFun heq r₀
    simp only at this
    have : v r₀ = 0 := by linarith [this]
    exact absurd this hvr

/-! §9  Homography-level lemmas. -/

theorem dotRow_rowX (p q : Point) (h : Vec 8) :
    dotRow (rowX p q) h
      = p.x * h 0 + p.y * h 1 + h 2 - p.x * q.x * h 6 - p.y * q.x * h 7 := by
  unfold dotRow
  rw [Fin.sum_univ_eight]
  show p.x * h 0 + p.y * h 1 + 1 * h 2 + 0 * h 3 + 0 * h 4 + 0 * h 5
      + -(p.x * q.x) * h 6 + -(p.y * q.x) * h 7 = _
  ring

theorem dotRow_rowY (p q : Point) (h : Vec 8) :
    dotRow (rowY p q) h
      = p.x * h 3 + p.y * h 4 + h 5 - p.x * q.y * h 6 - p.y * q.y * h 7 := by
  unfold dotRow
  rw [Fin.sum_univ_eight]
  show 0 * h 0 + 0 * h 1 + 0 * h 2 + p.x * h 3 + p.y * h 4 + 1 * h 5
      + -(p.x * q.y) * h 6 + -(p.y * q.y) * h 7 = _
  ring

theorem hom_rows (src dst : Fin 4 → Point) (h : Vec 8)
    (hs : Sol (homA src dst) (homB dst) h) (i : Fin 4) :
    dotRow (rowX (src i) (dst i)) h = (dst i).x
      ∧ dotRow (rowY (src i) (dst i)) h = (dst i).y := by
  fin_cases i
  · exact ⟨hs 0, hs 1⟩
  · exact ⟨hs 2, hs 3⟩
  · exact ⟨hs 4, hs 5⟩
  · exact ⟨hs 6, hs 7⟩

theorem applyTransform_of_rows (h : Vec 8) (p q : Point)
    (hx : dotRow (rowX p q) h = q.x) (hy : dotRow (rowY p q) h = q.y)
    (hden : transformDen h p ≠ 0) : applyTransform h p = q := by
  rw [dotRow_rowX] at hx
  rw [dotRow_rowY] at hy
  obtain ⟨qx, qy⟩ := q
  unfold applyTransform
  unfold transformDen at hden
  simp only [Point.mk.injEq]
  constructor
  · rw [div_eq_iff hden]
    linear_combination hx
  · rw [div_eq_iff hden]
    linear_combination hy

theorem dotRow_rowX_kernel (p q qj : Point) (a b : ℚ) :
    dotRow (rowX p q) ![qj.x * a, qj.x * b, 0, qj.y * a, qj.y * b, 0, a, b]
      = (qj.x - q.x) * (a * p.x + b * p.y) := by
  rw [dotRow_rowX]
  show p.x * (qj.x * a) + p.y * (qj.x * b) + 0 - p.x * q.x * a - p.y * q.x * b = _
  ring

theorem dotRow_rowY_kernel (p q qj : Point) (a b : ℚ) :
    dotRow (rowY p q) ![qj.x * a, qj.x * b, 0, qj.y * a, qj.y * b, 0, a, b]
      = (qj.y - q.y) * (a * p.x + b * p.y) := by
  rw [dotRow_rowY]
  show p.x * (qj.y * a) + p.y * (qj.y * b) + 0 - p.x * q.y * a - p.y * q.y * b = _
  ring

theorem kernel_entry_x (src dst : Fin 4 → Point) (a b : ℚ) (jex : Fin 4)
    (hline : ∀ i : Fin 4, i ≠ jex → a * (src i).x + b * (src i).y = 0) (k : Fin 4) :
    dotRow (rowX (src k) (dst k))
      ![(dst jex).x * a, (dst jex).x * b, 0, (dst jex).y * a, (dst jex).y * b, 0, a, b]
      = 0 := by
  refine (dotRow_rowX_kernel (src k) (dst k) (dst jex) a b).trans ?_
  by_cases hk : k = jex
  · rw [hk]
    ring
  · rw [hline k hk, mul_zero]

theorem kernel_entry_y (src dst : Fin 4 → Point) (a b : ℚ) (jex : Fin 4)
    (hline : ∀ i : Fin 4, i ≠ jex → a * (src i).x + b * (src i).y = 0) (k : Fin 4) :
    dotRow (rowY (src k) (dst k))
      ![(dst jex).x * a, (dst jex).x * b, 0, (dst jex).y * a, (dst jex).y * b, 0, a, b]
      = 0 := by
  refine (dotRow_rowY_kernel (src k) (dst k) (dst jex) a b).trans ?_
  by_cases hk : k = jex
  · rw [hk]
    ring
  · rw [hline k hk, mul_zero]

theorem getPerspectiveTransform_none_of_collinear_origin (src dst : Fin 4 → Point)
    (a b : ℚ) (hab : a ≠ 0 ∨ b ≠ 0) (jex : Fin 4)
    (hline : ∀ i : Fin 4, i ≠ jex → a * (src i).x + b * (src i).y = 0) :
    getPerspectiveTransform src dst = none := by
  have hker : ∀ r : Fin 8,
      dotRow (homA src dst r)
        ![(dst jex).x * a, (dst jex).x * b, 0, (dst jex).y * a, (dst jex).y * b, 0, a, b]
        = 0 := by
    intro r
    fin_cases r
    · exact kernel_entry_x src dst a b jex hline 0
    · exact kernel_entry_y src dst a b jex hline 0
    · exact kernel_entry_x src dst a b jex hline 1
    · exact kernel_entry_y src dst a b jex hline 1
    · exact kernel_entry_x src dst a b jex hline 2
    · exact kernel_entry_y src dst a b jex hline 2
    · exact kernel_entry_x src dst a b jex hline 3
    · exact kernel_entry_y src dst a b jex hline 3
  unfold getPerspectiveTransform
  rcases hab with ha | hb
  · exact solveSystem_none_of_kernel _ _ _ 6 ha hker
  · exact solveSystem_none_of_kernel _ _ _ 7 hb hker

theorem eq_some_of_proj (o : Option (Vec 8)) (v : Vec 8)
    (h : o.map (fun f => (List.finRange 8).map f) = some ((List.finRange 8).map v)) :
    o = some v := by
  cases o with
  | none => exact absurd h (by simp)
  | some f =>
    simp only [Option.map_some', Option.some.injEq] at h
    have hpt := List.map_inj_left.mp h
    exact congrArg some (funext (fun i => hpt i (List.mem_finRange i)))

/-! §10  Claim theorems. -/

set_option maxRecDepth 1000000 in
/-- C1, counterexample: the round-trip property fails as stated.  On the
concrete correspondence `vanishSrc / vanishDst` the solver succeeds, yet
applying the returned transform to `vanishSrc 0` does not reproduce
`vanishDst 0` within `1e-6` (the projective denominator vanishes there). -/
theorem c1_counterexample :
    (getPerspectiveTransform vanishSrc vanishDst).all
      (fun h => decide (withinEps (applyTransform h (vanishSrc 0)) (vanishDst 0))) = false :=
  of_decide_eq_true (by with_unfolding_all rfl)

/-- C1 (amended): whenever `getPerspectiveTransform` succeeds, each source
point whose projective denominator `h6·x + h7·y + 1` is nonzero is mapped
exactly onto its destination point (hence within `1e-6`); at a source point
with zero denominator the applied transform is undefined (0/0) and need not
reproduce the destination. -/
theorem c1_amended (src dst : Fin 4 → Point) (h : Vec 8)
    (hs : getPerspectiveTransform src dst = some h) (i : Fin 4)
    (hden : transformDen h (src i) ≠ 0) :
    applyTransform h (src i) = dst i ∧ withinEps (applyTransform h (src i)) (dst i) := by
  have hsol : Sol (homA src dst) (homB dst) h := (solveSystem_spec _ _ _ hs).1
  obtain ⟨hx, hy⟩ := hom_rows src dst h hsol i
  have heq := applyTransform_of_rows h (src i) (dst i) hx hy hden
  refine ⟨heq, ?_⟩
  rw [heq]
  constructor <;> simp [roundEps]

set_option maxRecDepth 1000000 in
/-- C1, witness: on the concrete translation correspondence the solver
succeeds with `transH` and the amended round-trip holds at index 0. -/
theorem c1_witness : applyTransform transH (transSrc 0) = transDst 0 := by
  have hproj : (getPerspectiveTransform transSrc transDst).map
      (fun f => (List.finRange 8).map f) = some ((List.finRange 8).map transH) :=
    of_decide_eq_true (by with_unfolding_all rfl)
  have hs := eq_some_of_proj _ _ hproj
  exact (c1_amended transSrc transDst transH hs 0
    (of_decide_eq_true (by with_unfolding_all rfl))).1

set_option maxRecDepth 1000000 in
/-- C5, counterexample: a correspondence with three collinear source points
(on `y = 1`) on which the solver nevertheless returns a matrix. -/
theorem c5_counterexample :
    collinear3 (collSrc 0) (collSrc 1) (collSrc 2)
      ∧ (getPerspectiveTransform collSrc collDst).isSome = true :=
  of_decide_eq_true (by with_unfolding_all rfl)

/-- C5 (amended): solving fails exactly when some pivot magnitude after
partial pivoting falls below `1e-9` (`elimFails`); three collinear points do
not force failure in general, but when three of the four source points lie on
a common line through the origin the 8×8 system is singular and the solver
does return the `none` sentinel. -/
theorem c5_amended :
    (∀ (m : ℕ) (A : Mat m) (b : Vec m),
        solveSystem A b = none ↔ elimFails A (List.finRange m) = true)
    ∧ (∀ (src dst : Fin 4 → Point) (a b : ℚ), (a ≠ 0 ∨ b ≠ 0) → ∀ jex : Fin 4,
        (∀ i : Fin 4, i ≠ jex → a * (src i).x + b * (src i).y = 0) →
        getPerspectiveTransform src dst = none) := by
  constructor
  · intro m A b
    exact solveSystem_none_iff A b
  · intro src dst a b hab jex hline
    exact getPerspectiveTransform_none_of_collinear_origin src dst a b hab jex hline

/-- C5, witness: three source points on `y = x` (a line through the origin)
make the solver return the `none` sentinel. -/
theorem c5_witness : getPerspectiveTransform originSrc originDst = none :=
  c5_amended.2 originSrc originDst 1 (-1) (Or.inl one_ne_zero) 3
    (of_decide_eq_true (by with_unfolding_all rfl))

/-! §11  Colour-filter lemmas and claims. -/

theorem removeLoop_eq_any (c : RGB) (l : List ColorFilter) :
    removeLoop c l = l.any (fun f => colorMatches c f.color f.tolerance) := by
  induction l with
  | nil => rfl
  | cons f rest ih =>
    rw [removeLoop, List.any_cons]
    by_cases hm : colorMatches c f.color f.tolerance
    · rw [if_pos hm, hm, Bool.true_or]
    · rw [if_neg hm, ih]
      cases hmb : colorMatches c f.color f.tolerance with
      | true => exact absurd hmb hm
      | false => rw [Bool.false_or]

theorem keepLoop_eq_find? (c : RGB) (l : List ColorFilter) :
    keepLoop c l = l.find? (fun f => colorMatches c f.color f.tolerance) := by
  induction l with
  | nil => rfl
  | cons f rest ih =>
    rw [keepLoop, List.find?_cons]
    by_cases hm : colorMatches c f.color f.tolerance
    · rw [if_pos hm, hm]
    · rw [if_neg hm, ih]
      cases hmb : colorMatches c f.color f.tolerance with
      | true => exact absurd hmb hm
      | false => rfl

theorem processLoop_eq_map (ks rs : List ColorFilter) (buffer : List Pixel) :
    processLoop ks rs buffer = buffer.map (processPixel ks rs) := by
  induction buffer with
  | nil => rfl
  | cons p rest ih => rw [processLoop, List.map_cons, ih]

theorem processPixel_eq_spec (keep remove : List ColorFilter) (p : Pixel) :
    processPixel (keep.map scaleTolerance) (remove.map scaleTolerance) p
      = pixelSpec keep remove p := by
  unfold processPixel pixelSpec
  rw [removeLoop_eq_any, keepLoop_eq_find?]
  by_cases hrem :
      (remove.map scaleTolerance).any (fun f => colorMatches p.color f.color f.tolerance)
  · rw [if_pos hrem, if_pos hrem]
  · rw [if_neg hrem, if_neg hrem]
    cases hks : keep.map scaleTolerance with
    | nil => simp
    | cons k0 ktl => simp

/-- C2: the colour filter maps each pixel independently (the buffer loop is a
`List.map`), and the per-pixel behaviour is exactly the specified one: some
remove rule matching (Euclidean RGB distance strictly below the rule's
tolerance scaled by 2.55) makes the pixel transparent; otherwise a non-empty
keep list recolors to the first matching keep rule at full opacity, or makes
the pixel transparent when none matches; with an empty keep list the pixel
passes through unchanged.  `pixelSpec` is the spec-side description. -/
theorem c2_theorem (keep remove : List ColorFilter) (buffer : List Pixel) :
    processImageColors keep remove buffer = buffer.map (pixelSpec keep remove) := by
  unfold processImageColors
  rw [processLoop_eq_map]
  have hfun : processPixel (keep.map scaleTolerance) (remove.map scaleTolerance)
      = pixelSpec keep remove := funext (processPixel_eq_spec keep remove)
  rw [hfun]

/-- C6, counterexample: with remove rule black/3 and keep rule `(0,0,5)`/80,
the pixel `(0,0,100)` is recoloured to `(0,0,5)` on the first pass and then
removed (alpha 0) on the second pass: the filter is not idempotent. -/
theorem c6_counterexample :
    processImageColors hijackKeep hijackRemove
        (processImageColors hijackKeep hijackRemove hijackBuffer)
      ≠ processImageColors hijackKeep hijackRemove hijackBuffer :=
  of_decide_eq_true (by with_unfolding_all rfl)

theorem colorMatches_tol_pos {c target : RGB} {tol : ℚ}
    (h : colorMatches c target tol = true) : 0 < tol := by
  unfold colorMatches at h
  rw [decide_eq_true_eq] at h
  exact h.1

theorem colorMatches_self {f : ColorFilter} (htol : 0 < f.tolerance) :
    colorMatches f.color f.color f.tolerance = true := by
  unfold colorMatches
  rw [decide_eq_true_eq]
  refine ⟨htol, ?_⟩
  have hz : colorDistanceSq f.color f.color = 0 := by
    unfold colorDistanceSq
    ring
  rw [hz]
  push_cast
  positivity

theorem processPixel_idem (ks rs : List ColorFilter)
    (H1 : ∀ f ∈ ks, ∀ r ∈ rs, colorMatches f.color r.color r.tolerance = false)
    (H2 : ∀ f ∈ ks, (ks.find? (fun g => colorMatches f.color g.color g.tolerance)).all
        (fun g => decide (g.color = f.color)) = true)
    (p : Pixel) : processPixel ks rs (processPixel ks rs p) = processPixel ks rs p := by
  by_cases hrem : removeLoop p.color rs = true
  · have hq : processPixel ks rs p = ⟨p.color, 0⟩ := by
      unfold processPixel
      rw [if_pos hrem]
    rw [hq]
    unfold processPixel
    rw [if_pos hrem]
  · have hremf : removeLoop p.color rs = false := by
      cases h : removeLoop p.color rs with
      | true => exact absurd h hrem
      | false => rfl
    by_cases hemp : ks = []
    · have hq : processPixel ks rs p = p := by
        unfold processPixel
        rw [if_neg hrem, hemp]
        simp
      rw [hq, hq]
    · have hlen : ks.length > 0 := List.length_pos.mpr hemp
      cases hfind : ks.find? (fun f => colorMatches p.color f.color f.tolerance) with
      | none =>
        have hq : processPixel ks rs p = ⟨p.color, 0⟩ := by
          unfold processPixel
          rw [if_neg hrem, if_pos hlen, keepLoop_eq_find?, hfind]
        rw [hq]
        unfold processPixel
        rw [if_neg hrem, if_pos hlen, keepLoop_eq_find?]
        rw [show (⟨p.color, 0⟩ : Pixel).color = p.color from rfl, hfind]
      | some f =>
        have hf_mem : f ∈ ks := List.mem_of_find?_eq_some hfind
        have hf_match : colorMatches p.color f.color f.tolerance = true :=
          (List.find?_eq_some.mp hfind).1
        have htol : 0 < f.tolerance := colorMatches_tol_pos hf_match
        have hq : processPixel ks rs p = ⟨f.color, 255⟩ := by
          unfold processPixel
          rw [if_neg hrem, if_pos hlen, keepLoop_eq_find?, hfind]
        rw [hq]
        have hrem2 : removeLoop f.color rs = true → False := by
          intro hcon
          rw [removeLoop_eq_any, List.any_eq_true] at hcon
          obtain ⟨g, hg, hmg⟩ := hcon
          rw [H1 f hf_mem g hg] at hmg
          exact Bool.false_ne_true hmg
        have hsome : (ks.find? (fun g => colorMatches f.color g.color g.tolerance)).isSome := by
          rw [List.find?_isSome]
          exact ⟨f, hf_mem, colorMatches_self htol⟩
        obtain ⟨f', hf'⟩ := Option.isSome_iff_exists.mp hsome
        have hcol : f'.color = f.color := by
          have := H2 f hf_mem
          rw [hf'] at this
          simpa using this
        unfold processPixel
        rw [if_neg hrem2, if_pos hlen, keepLoop_eq_find?]
        rw [show (⟨f.color, 255⟩ : Pixel).color = f.color from rfl, hf']
        show (⟨f'.color, 255⟩ : Pixel) = ⟨f.color, 255⟩
        rw [hcol]

/-- C6 (amended): the colour filter is idempotent provided no keep rule's
target colour itself matches a remove rule, and the first keep rule matching
any keep rule's target colour recolors to that same colour; the default rule
set of the editor satisfies both.  Without these side conditions a second
pass can change recoloured pixels, as `c6_counterexample` shows. -/
theorem c6_amended (keep remove : List ColorFilter)
    (H1 : ∀ f ∈ keep.map scaleTolerance, ∀ r ∈ remove.map scaleTolerance,
        colorMatches f.color r.color r.tolerance = false)
    (H2 : ∀ f ∈ keep.map scaleTolerance,
        ((keep.map scaleTolerance).find?
            (fun g => colorMatches f.color g.color g.tolerance)).all
          (fun g => decide (g.color = f.color)) = true)
    (buffer : List Pixel) :
    processImageColors keep remove (processImageColors keep remove buffer)
      = processImageColors keep remove buffer := by
  unfold processImageColors
  rw [processLoop_eq_map, processLoop_eq_map, List.map_map]
  apply List.map_congr_left
  intro p _
  exact processPixel_idem (keep.map scaleTolerance) (remove.map scaleTolerance) H1 H2 p

/-- C6, witness: the default rule set (keep red 80; remove yellow 80 and
white 5) is idempotent on a sample buffer. -/
theorem c6_witness :
    processImageColors defaultKeep defaultRemove
        (processImageColors defaultKeep defaultRemove sampleBuffer)
      = processImageColors defaultKeep defaultRemove sampleBuffer :=
  c6_amended defaultKeep defaultRemove
    (of_decide_eq_true (by with_unfolding_all rfl))
    (of_decide_eq_true (by with_unfolding_all rfl))
    sampleBuffer

/-! §12  Contain-geometry claim. -/

/-- C7: for positive container and image dimensions the contain rect
preserves the image's natural aspect ratio exactly (hence within `1e-6`),
fits inside the container, and when the two aspect ratios differ exactly one
offset is `0` while the other is positive; moreover a 100×200 image in a
400×400 container yields `{offsetX: 100, offsetY: 0, width: 200,
height: 400}`. -/
theorem c7_theorem (cw ch iw ih : ℚ) (hcw : 0 < cw) (hch : 0 < ch)
    (hiw : 0 < iw) (hih : 0 < ih) :
    ((calculateObjectContainGeometry cw ch iw ih).width
        / (calculateObjectContainGeometry cw ch iw ih).height = iw / ih)
    ∧ (0 ≤ (calculateObjectContainGeometry cw ch iw ih).x
        ∧ 0 ≤ (calculateObjectContainGeometry cw ch iw ih).y
        ∧ (calculateObjectContainGeometry cw ch iw ih).x
            + (calculateObjectContainGeometry cw ch iw ih).width ≤ cw
        ∧ (calculateObjectContainGeometry cw ch iw ih).y
            + (calculateObjectContainGeometry cw ch iw ih).height ≤ ch)
    ∧ (iw / ih ≠ cw / ch →
        ((calculateObjectContainGeometry cw ch iw ih).x = 0
            ∧ 0 < (calculateObjectContainGeometry cw ch iw ih).y)
          ∨ ((calculateObjectContainGeometry cw ch iw ih).y = 0
            ∧ 0 < (calculateObjectContainGeometry cw ch iw ih).x))
    ∧ calculateObjectContainGeometry 400 400 100 200 = ⟨100, 0, 200, 400⟩ := by
  have hA : calculateObjectContainGeometry 400 400 100 200 = ⟨100, 0, 200, 400⟩ :=
    of_decide_eq_true (by with_unfolding_all rfl)
  have hr1 : 0 < iw / ih := div_pos hiw hih
  have hr2 : 0 < cw / ch := div_pos hcw hch
  have key : calculateObjectContainGeometry cw ch iw ih =
      if iw / ih > cw / ch then
        ⟨0, (ch - cw / (iw / ih)) / 2, cw, cw / (iw / ih)⟩
      else ⟨(cw - ch * (iw / ih)) / 2, 0, ch * (iw / ih), ch⟩ := rfl
  rw [key]
  by_cases hcase : iw / ih > cw / ch
  · rw [if_pos hcase]
    dsimp only
    have hh : cw / (iw / ih) < ch := by
      rw [div_lt_iff₀ hr1]
      have h1 : cw / ch * ch < iw / ih * ch := mul_lt_mul_of_pos_right hcase hch
      rw [div_mul_cancel₀ _ (ne_of_gt hch)] at h1
      rw [mul_comm]
      exact h1
    refine ⟨?_, ⟨le_refl 0, by linarith, by linarith, by linarith⟩, ?_, hA⟩
    · rw [div_div_eq_mul_div, mul_div_cancel_left₀ _ (ne_of_gt hcw)]
    · intro _
      exact Or.inl ⟨rfl, by linarith⟩
  · rw [if_neg hcase]
    dsimp only
    push_neg at hcase
    have hchc : ch * (cw / ch) = cw := by
      rw [mul_comm, div_mul_cancel₀ _ (ne_of_gt hch)]
    have hw : ch * (iw / ih) ≤ cw := by
      have h1 : ch * (iw / ih) ≤ ch * (cw / ch) :=
        mul_le_mul_of_nonneg_left hcase (le_of_lt hch)
      rw [hchc] at h1
      exact h1
    refine ⟨?_, ⟨by linarith, le_refl 0, by linarith, by linarith⟩, ?_, hA⟩
    · exact mul_div_cancel_left₀ _ (ne_of_gt hch)
    · intro hne
      have hstrict : iw / ih < cw / ch := lt_of_le_of_ne hcase hne
      have h1 : ch * (iw / ih) < ch * (cw / ch) := by
        exact mul_lt_mul_of_pos_left hstrict hch
      rw [hchc] at h1
      exact Or.inr ⟨rfl, by linarith⟩

/-- C7, witness: the aspect-ratio equation of the contain rect, instantiated
at the 400×400 container with a 100×200 image. -/
theorem c7_witness :
    (calculateObjectContainGeometry 400 400 100 200).width
      / (calculateObjectContainGeometry 400 400 100 200).height = 100 / 200 :=
  (c7_theorem 400 400 100 200 (by norm_num) (by norm_num) (by norm_num) (by norm_num)).1

/-! §13  Guided-mode click claims (C3). -/

/-- C3, counterexample: with an odd step in auto mode, a destination click at
`(10, 10)` — outside the field photo's contain rect, whose left edge sits at
`x = 100` — is accepted: the point is appended and the step advances, so
destination clicks are not bounds-checked against the photo's rect. -/
theorem c3_counterexample :
    (10 : ℚ) < photoRect.x
      ∧ (handleContainerClick previewRect previewSize false 10 10 autoOddState).destPoints
          = [⟨10, 10⟩]
      ∧ (handleContainerClick previewRect previewSize false 10 10 autoOddState).pinningStep
          = 2 :=
  of_decide_eq_true (by with_unfolding_all rfl)

/-- C3 (amended): in guided mode with the step below 8, a source click
outside the overlay preview's contain rect is rejected with no state change
at all; destination clicks, by contrast, carry no bounds test — any
container click outside the preview element on an odd step is accepted,
appending the raw click point and advancing the step, regardless of the
photo's displayed rect. -/
theorem c3_amended :
    (∀ (g : ImageGeom) (sz : Size) (cx cy : ℚ) (s : EditorState),
        s.pinningStep < 8 →
        (cx < g.x ∨ g.x + g.width < cx ∨ cy < g.y ∨ g.y + g.height < cy) →
        handleAutoPinClick g sz .source cx cy s = s)
    ∧ (∀ (g : ImageGeom) (sz : Size) (cx cy : ℚ) (s : EditorState),
        s.editMode = .auto → s.pinningStep % 2 = 1 → s.pinningStep < 8 →
        handleContainerClick g sz false cx cy s
          = { s with destPoints := s.destPoints ++ [⟨cx, cy⟩],
                     pinningStep := s.pinningStep + 1 }) := by
  constructor
  · intro g sz cx cy s h8 hout
    unfold handleAutoPinClick
    rw [if_neg (by omega)]
    show (if cx < g.x ∨ g.x + g.width < cx ∨ cy < g.y ∨ g.y + g.height < cy then s
      else _) = s
    rw [if_pos hout]
  · intro g sz cx cy s hmode hodd h8
    unfold handleContainerClick
    rw [if_neg (by push_neg; exact ⟨hmode, by omega, by omega⟩)]
    show handleAutoPinClick g sz .dest cx cy s = _
    unfold handleAutoPinClick
    rw [if_neg (by omega)]
    show (if s.pinningStep % 2 ≠ 0 then _ else s) = _
    rw [if_pos (by omega)]

/-- C3, witness: a source click left of the preview rect is rejected, and a
destination click at `(10, 10)` on an odd step is accepted. -/
theorem c3_witness :
    handleAutoPinClick previewRect previewSize .source (-5) 10 autoEvenState = autoEvenState
      ∧ handleContainerClick previewRect previewSize false 10 10 autoOddState
          = { autoOddState with destPoints := [⟨10, 10⟩], pinningStep := 2 } :=
  ⟨c3_amended.1 previewRect previewSize (-5) 10 autoEvenState (by decide)
      (Or.inl (of_decide_eq_true (by with_unfolding_all rfl))),
   c3_amended.2 previewRect previewSize 10 10 autoOddState rfl rfl (by decide)⟩

/-! §14  Manual-mode recompute claims (C4). -/

/-- C4, counterexample: `draggedState` has the manually-adjusted flag set
(the user dragged a point), yet a scale-slider change to `0.8` — not a
reset — clears the flag and auto-recomputes the destination points to the
centred rectangle for the new scale. -/
theorem c4_counterexample :
    draggedState.isManuallyAdjusted = true
      ∧ (manualPointsEffect manualGeom manualSize
            (handleManualScaleChange (4 / 5) draggedState)).destPoints
          = [⟨120, 40⟩, ⟨280, 40⟩, ⟨280, 360⟩, ⟨120, 360⟩]
      ∧ (manualPointsEffect manualGeom manualSize
            (handleManualScaleChange (4 / 5) draggedState)).destPoints
          ≠ draggedState.destPoints :=
  of_decide_eq_true (by with_unfolding_all rfl)

/-- C4 (amended): dragging a destination point sets the manually-adjusted
flag, and while the flag is set the recompute effect is a no-op (geometry or
size changes leave `dest` alone); however a manual-scale slider change
clears the flag and immediately auto-recomputes the points — not only the
explicit reset, which also clears the flag. -/
theorem c4_amended :
    (∀ (p : Point) (i : ℕ) (s : EditorState),
        (handleManualPointDrag p i s).isManuallyAdjusted = true)
    ∧ (∀ (g : ImageGeom) (sz : Size) (s : EditorState),
        s.isManuallyAdjusted = true → manualPointsEffect g sz s = s)
    ∧ (∀ (sc : ℚ) (s : EditorState),
        (handleManualScaleChange sc s).isManuallyAdjusted = false
          ∧ ∀ (g : ImageGeom) (sz : Size), s.editMode = .manual → 0 < g.width →
              manualPointsEffect g sz (handleManualScaleChange sc s)
                = updatePointsForScale g sz sc (handleManualScaleChange sc s))
    ∧ (∀ s : EditorState, (resetPoints s).isManuallyAdjusted = false) := by
  refine ⟨fun p i s => rfl, ?_, ?_, fun s => rfl⟩
  · intro g sz s hflag
    unfold manualPointsEffect
    rw [if_neg]
    intro hcon
    rw [hflag] at hcon
    exact Bool.noConfusion hcon.2.2
  · intro sc s
    refine ⟨rfl, ?_⟩
    intro g sz hmode hw
    unfold manualPointsEffect
    rw [if_pos ⟨hmode, hw, rfl⟩]
    rfl

/-- C4, witness: the no-op of the effect on the dragged state, and the
flag-clearing of a scale change, at concrete inputs. -/
theorem c4_witness :
    manualPointsEffect manualGeom manualSize draggedState = draggedState
      ∧ (handleManualScaleChange (4 / 5) draggedState).isManuallyAdjusted = false :=
  ⟨c4_amended.2.1 manualGeom manualSize draggedState rfl,
   (c4_amended.2.2.1 (4 / 5) draggedState).1⟩

/-! §15  Drag-permission claims (C9). -/

theorem mapIdx_const_id {α : Type} (l : List α) : l.mapIdx (fun _ p => p) = l := by
  induction l with
  | nil => rfl
  | cons a t iht =>
    rw [List.mapIdx_cons]
    exact congrArg (a :: ·) iht

theorem mapIdx_set {α : Type} (l : List α) (i : ℕ) (v : α) :
    l.mapIdx (fun j p => if j = i then v else p) = l.set i v := by
  induction l generalizing i with
  | nil => rfl
  | cons a t iht =>
    rw [List.mapIdx_cons]
    cases i with
    | zero =>
      rw [if_pos rfl, List.set_cons_zero]
      congr 1
      have hfe : (fun (j : ℕ) (p : α) => if j + 1 = 0 then v else p)
          = (fun (_ : ℕ) (p : α) => p) := by
        funext j p
        rw [if_neg (Nat.succ_ne_zero j)]
      rw [hfe, mapIdx_const_id]
    | succ k =>
      rw [if_neg (by omega : ¬ (0 : ℕ) = k + 1), List.set_cons_succ]
      congr 1
      have hfe : (fun (j : ℕ) (p : α) => if j + 1 = k + 1 then v else p)
          = (fun (j : ℕ) (p : α) => if j = k then v else p) := by
        funext j p
        exact if_congr (by omega) rfl rfl
      rw [hfe, iht k]

/-- C9: in guided mode, a mouse-down on a source point during an odd step
(awaiting the destination click of the current pair) starts no drag and
changes no state; on an even step it starts a drag of that index and a
subsequent mouse move repositions exactly that source point (clamped to the
preview rect and rescaled to overlay space); and destination points are
repositionable by `handleAutoDestPointDrag` at every step, with no guard. -/
theorem c9_theorem :
    (∀ (i : ℕ) (s : EditorState), s.pinningStep % 2 = 1 →
        handleSourcePointMouseDown i s = s)
    ∧ (∀ (i : ℕ) (s : EditorState) (g : ImageGeom) (sz : Size) (mx my : ℚ),
        s.pinningStep % 2 = 0 →
        (handleSourcePointMouseDown i s).draggingSourcePointIndex = some i
          ∧ (sourceDragMove g sz mx my (handleSourcePointMouseDown i s)).sourcePoints
              = s.sourcePoints.set i
                  ⟨(max g.x (min mx (g.x + g.width)) - g.x) / g.width * sz.width,
                   (max g.y (min my (g.y + g.height)) - g.y) / g.height * sz.height⟩)
    ∧ (∀ (p : Point) (i : ℕ) (s : EditorState),
        handleAutoDestPointDrag p i s = { s with destPoints := s.destPoints.set i p }) := by
  refine ⟨?_, ?_, ?_⟩
  · intro i s hodd
    unfold handleSourcePointMouseDown
    rw [if_pos (by omega)]
  · intro i s g sz mx my heven
    have hdown : handleSourcePointMouseDown i s
        = { s with draggingSourcePointIndex := some i } := by
      unfold handleSourcePointMouseDown
      rw [if_neg (by omega)]
    rw [hdown]
    exact ⟨rfl, mapIdx_set _ i _⟩
  · intro p i s
    unfold handleAutoDestPointDrag
    rw [mapIdx_set]

/-- C9, witness: the three behaviours at concrete states. -/
theorem c9_witness :
    handleSourcePointMouseDown 0 autoOddState = autoOddState
      ∧ (handleSourcePointMouseDown 0 autoEvenState).draggingSourcePointIndex = some 0
      ∧ handleAutoDestPointDrag ⟨3, 4⟩ 0 autoOddState
          = { autoOddState with destPoints := autoOddState.destPoints.set 0 ⟨3, 4⟩ } :=
  ⟨c9_theorem.1 0 autoOddState rfl,
   (c9_theorem.2.1 0 autoEvenState previewRect previewSize 0 0 rfl).1,
   c9_theorem.2.2 ⟨3, 4⟩ 0 autoOddState⟩

/-! §16  Guided-mode length invariant (C10). -/

theorem handleAutoPinClick_cases (g : ImageGeom) (sz : Size) (t : PinTarget)
    (cx cy : ℚ) (s : EditorState) :
    handleAutoPinClick g sz t cx cy s = s
      ∨ (∃ pt, handleAutoPinClick g sz t cx cy s
            = { s with sourcePoints := s.sourcePoints ++ [pt],
                       pinningStep := s.pinningStep + 1 }
          ∧ s.pinningStep % 2 = 0)
      ∨ (∃ pt, handleAutoPinClick g sz t cx cy s
            = { s with destPoints := s.destPoints ++ [pt],
                       pinningStep := s.pinningStep + 1 }
          ∧ s.pinningStep % 2 = 1) := by
  unfold handleAutoPinClick
  split
  · exact Or.inl rfl
  · split
    · split
      · exact Or.inl rfl
      · split
        · next heven => exact Or.inr (Or.inl ⟨_, rfl, heven⟩)
        · exact Or.inl rfl
    · split
      · next hodd => exact Or.inr (Or.inr ⟨_, rfl, by omega⟩)
      · exact Or.inl rfl

theorem handleContainerClick_cases (g : ImageGeom) (sz : Size) (ip : Bool)
    (cx cy : ℚ) (s : EditorState) :
    handleContainerClick g sz ip cx cy s = s
      ∨ handleContainerClick g sz ip cx cy s = handleAutoPinClick g sz .dest cx cy s := by
  unfold handleContainerClick
  split
  · exact Or.inl rfl
  · split
    · exact Or.inl rfl
    · exact Or.inr rfl

/-- C10: in guided (auto-pin) mode, every reachable state keeps
`sourcePoints.length = ⌈pinningStep / 2⌉` (written `(pinningStep + 1) / 2` in
ℕ) and `destPoints.length = ⌊pinningStep / 2⌋`: accepted clicks append one
point and advance the step, drags preserve lengths, and Clear and mode entry
reset everything; consequently the source sequence is always equal in length
to or one longer than the destination sequence, and step 8 means both hold 4
points. -/
theorem c10_theorem (s : EditorState) (hs : ReachableAuto s) :
    s.sourcePoints.length = (s.pinningStep + 1) / 2
    ∧ s.destPoints.length = s.pinningStep / 2
    ∧ (s.pinningStep = 8 → s.sourcePoints.length = 4 ∧ s.destPoints.length = 4)
    ∧ (s.sourcePoints.length = s.destPoints.length
        ∨ s.sourcePoints.length = s.destPoints.length + 1) := by
  have main : s.sourcePoints.length = (s.pinningStep + 1) / 2
      ∧ s.destPoints.length = s.pinningStep / 2 := by
    induction hs with
    | init s0 =>
      have hsrc : (autoInit s0).sourcePoints = [] := by
        unfold autoInit autoClearEffect handleModeChange
        rw [if_pos rfl]
      have hdst : (autoInit s0).destPoints = [] := by
        unfold autoInit autoClearEffect handleModeChange
        rw [if_pos rfl]
      have hstep : (autoInit s0).pinningStep = 0 := by
        unfold autoInit autoClearEffect handleModeChange
        rw [if_pos rfl]
      rw [hsrc, hdst, hstep]
      exact ⟨rfl, rfl⟩
    | step e s0 hs0 ih =>
      obtain ⟨ih1, ih2⟩ := ih
      cases e with
      | sourceClick g sz cx cy =>
        simp only [autoStep]
        rcases handleAutoPinClick_cases g sz .source cx cy s0 with
          h | ⟨pt, h, hpar⟩ | ⟨pt, h, hpar⟩
        · rw [h]; exact ⟨ih1, ih2⟩
        · rw [h]
          constructor
          · show (s0.sourcePoints ++ [pt]).length = (s0.pinningStep + 1 + 1) / 2
            rw [List.length_append]
            simp only [List.length_cons, List.length_nil]
            omega
          · show s0.destPoints.length = (s0.pinningStep + 1) / 2
            omega
        · rw [h]
          constructor
          · show s0.sourcePoints.length = (s0.pinningStep + 1 + 1) / 2
            omega
          · show (s0.destPoints ++ [pt]).length = (s0.pinningStep + 1) / 2
            rw [List.length_append]
            simp only [List.length_cons, List.length_nil]
            omega
      | containerClick g sz ip cx cy =>
        simp only [autoStep]
        rcases handleContainerClick_cases g sz ip cx cy s0 with h | h
        · rw [h]; exact ⟨ih1, ih2⟩
        · rw [h]
          rcases handleAutoPinClick_cases g sz .dest cx cy s0 with
            h2 | ⟨pt, h2, hpar⟩ | ⟨pt, h2, hpar⟩
          · rw [h2]; exact ⟨ih1, ih2⟩
          · rw [h2]
            constructor
            · show (s0.sourcePoints ++ [pt]).length = (s0.pinningStep + 1 + 1) / 2
              rw [List.length_append]
              simp only [List.length_cons, List.length_nil]
              omega
            · show s0.destPoints.length = (s0.pinningStep + 1) / 2
              omega
          · rw [h2]
            constructor
            · show s0.sourcePoints.length = (s0.pinningStep + 1 + 1) / 2
              omega
            · show (s0.destPoints ++ [pt]).length = (s0.pinningStep + 1) / 2
              rw [List.length_append]
              simp only [List.length_cons, List.length_nil]
              omega
      | clear =>
        constructor
        · show ([] : List Point).length = (0 + 1) / 2
          rfl
        · show ([] : List Point).length = 0 / 2
          rfl
      | srcMouseDown i =>
        simp only [autoStep]
        unfold handleSourcePointMouseDown
        split
        · exact ⟨ih1, ih2⟩
        · exact ⟨ih1, ih2⟩
      | srcDragMove g sz mx my =>
        simp only [autoStep]
        unfold sourceDragMove
        split
        · exact ⟨ih1, ih2⟩
        · constructor
          · show (s0.sourcePoints.mapIdx _).length = _
            rw [List.length_mapIdx]
            exact ih1
          · exact ih2
      | destDrag p i =>
        simp only [autoStep]
        unfold handleAutoDestPointDrag
        constructor
        · exact ih1
        · show (s0.destPoints.mapIdx _).length = _
          rw [List.length_mapIdx]
          exact ih2
  refine ⟨main.1, main.2, fun h8 => ⟨?_, ?_⟩, ?_⟩
  · omega
  · omega
  · omega

/-- C10, witness: the invariant at the state reached by entering auto mode
from a fresh state. -/
theorem c10_witness :
    (autoInit freshState).sourcePoints.length
        = ((autoInit freshState).pinningStep + 1) / 2
      ∧ (autoInit freshState).destPoints.length = (autoInit freshState).pinningStep / 2 :=
  ⟨(c10_theorem (autoInit freshState) (ReachableAuto.init freshState)).1,
   (c10_theorem (autoInit freshState) (ReachableAuto.init freshState)).2.1⟩

/-! §17  Export abort claim (C8). -/

/-- C8: exporting with the overlay aborts with a user-visible error and
produces no file whenever the rendering context cannot be acquired, either
point sequence has fewer than 4 points, or the full-resolution solve returns
the `none` sentinel. -/
theorem c8_theorem (env : SaveEnv) (hov : env.saveWithOverlay = true)
    (hfail : env.ctxOk = false ∨ env.destPoints.length < 4 ∨ env.sourcePoints.length < 4
      ∨ getPerspectiveTransformL env.sourcePoints (finalDestPoints env) = none) :
    (runSave env).isAborted = true := by
  unfold runSave
  cases hsz : env.overlayImageSize with
  | none => rfl
  | some sz =>
    by_cases hctx : env.ctxOk = false
    · rw [if_pos hctx]; rfl
    · rw [if_neg hctx]
      rw [if_neg (by simp [hov])]
      by_cases hready : env.processedOverlayReady = false
      · rw [if_pos hready]; rfl
      · rw [if_neg hready]
        by_cases hlen : (finalDestPoints env).length < 4 ∨ env.sourcePoints.length < 4
        · rw [if_pos hlen]; rfl
        · rw [if_neg hlen]
          have hsolve : getPerspectiveTransformL env.sourcePoints (finalDestPoints env)
              = none := by
            rcases hfail with h | h | h | h
            · exact absurd h hctx
            · exfalso
              apply hlen
              left
              unfold finalDestPoints
              rw [List.length_map]
              exact h
            · exact absurd (Or.inr h) hlen
            · exact h
          rw [hsolve]
          rfl

/-- C8, witness: a save environment with only three destination points
aborts. -/
theorem c8_witness : (runSave failingSaveEnv).isAborted = true :=
  c8_theorem failingSaveEnv rfl (Or.inr (Or.inl (by decide)))

end Landviewer
